import Mathlib

/-!
# Verification of the TSV ingestion pipeline (`src/data_store/tsv_data_store.cc`)

This file is a shallow embedding of the TSV data-store load pipeline of the
gbdt repository, together with proofs of its specified properties.

The embedded code is `TSVDataStore::{LoadTSVs, LoadBlock, ProcessBlock,
Finalize, SetupColumns}`.  External collaborators that are part of the
repository but not available here (the `TSVBlock` row parser, the three
column-accumulator classes, the `ThreadPool`) are modelled from the
specification's contracts; each such definition is marked
`Modelled from the spec:` in its doc comment.

The concurrent part of the pipeline (parse tasks completing in arbitrary
order, per-column fold tasks, finalize tasks, with the scoped thread-pool
joins acting as barriers) is embedded as a small labelled transition system
(`step` / `execRun`); theorems about delivery order and accept/finalize
ordering are proved for *every* schedule of that machine, not just a
canonical one.
-/

namespace gbdt

/-- Split a character list at every occurrence of the separator `c`; the
separators are dropped and empty pieces are kept, as `strings::split`
does. -/
def splitOnChar (c : Char) : List Char → List (List Char)
  | [] => [[]]
  | x :: xs =>
    match splitOnChar c xs with
    | [] => [[x]]
    | s :: rest => if x = c then [] :: s :: rest else (x :: s) :: rest

/-- Modelled from the spec: `strings::split` from `src/utils` (external),
splitting a string at a one-character separator. -/
def stringsSplit (s : String) (c : Char) : List String :=
  (splitOnChar c s.toList).map List.asString

/-- Modelled from the spec: `TrimWhiteSpace` from `src/utils` (external):
trims leading and trailing whitespace of a header cell; applied to each
header name in `SetupColumns` (tsv_data_store.cc line 118). -/
def trimWhiteSpace (s : String) : String :=
  ((s.toList.dropWhile Char.isWhitespace).reverse.dropWhile Char.isWhitespace).reverse.asString

/-- The `TSVDataConfig` proto: the configured column names per kind
(`binned_float_column`, `raw_float_column`, `string_column`). -/
structure TSVDataConfig where
  binned_float_column : List String
  raw_float_column : List String
  string_column : List String

/-- Assignment into `unordered_map<string,int>` (`map[key] = v`): a later
insert for the same key overwrites the earlier one. -/
def mapUpdate (m : String → Option Nat) (k : String) (v : Nat) : String → Option Nat :=
  fun q => if q = k then some v else m q

/-- The empty `unordered_map<string,int>`. -/
def emptyHeaderMap : String → Option Nat := fun _ => none

/-- The header-map construction loop of `SetupColumns`
(tsv_data_store.cc lines 117-120): for `i` in order,
`map_from_header_to_index[trim(headers[i])] = i`. -/
def buildHeaderMap : List String → Nat → (String → Option Nat) → (String → Option Nat)
  | [], _, m => m
  | h :: t, i, m => buildHeaderMap t (i + 1) (mapUpdate m (trimWhiteSpace h) i)

/-- The state built by `SetupColumns`: the column registry `column_map_`
(name to the id of the accumulator currently registered under that name;
ids stand for the identity of the heap-allocated column objects, a fresh
id per `new`), the three per-kind accumulator lists (accumulator id paired
with its dense slot into the block's per-type arrays), and the two
slot-layout lists of source-header positions. -/
structure SetupState where
  column_map : String → Option Nat
  binned_float_columns : List (Nat × Nat)
  raw_float_columns : List (Nat × Nat)
  string_columns : List (Nat × Nat)
  float_column_indices : List Nat
  string_column_indices : List Nat
  next_id : Nat

def initSetupState : SetupState :=
  { column_map := fun _ => none
    binned_float_columns := []
    raw_float_columns := []
    string_columns := []
    float_column_indices := []
    string_column_indices := []
    next_id := 0 }

/-- The first loop of `SetupColumns` (tsv_data_store.cc lines 122-130):
for each configured binned-float name, `CHECK` it resolves in the header
map, register a fresh accumulator under the name, record
`(accumulator, float_column_indices_.size())` and push the header
position onto `float_column_indices_`. -/
def setupBinned (hmap : String → Option Nat) :
    List String → SetupState → Except String SetupState
  | [], st => .ok st
  | name :: rest, st =>
    match hmap name with
    | none => .error ("Failed to find " ++ name ++ " in header file.")
    | some idx =>
      setupBinned hmap rest
        { st with
          column_map := mapUpdate st.column_map name st.next_id
          binned_float_columns :=
            st.binned_float_columns ++ [(st.next_id, st.float_column_indices.length)]
          float_column_indices := st.float_column_indices ++ [idx]
          next_id := st.next_id + 1 }

/-- The second loop of `SetupColumns` (tsv_data_store.cc lines 132-140):
raw-float columns, sharing `float_column_indices_` with the binned loop. -/
def setupRaw (hmap : String → Option Nat) :
    List String → SetupState → Except String SetupState
  | [], st => .ok st
  | name :: rest, st =>
    match hmap name with
    | none => .error ("Failed to find " ++ name ++ " in header file.")
    | some idx =>
      setupRaw hmap rest
        { st with
          column_map := mapUpdate st.column_map name st.next_id
          raw_float_columns :=
            st.raw_float_columns ++ [(st.next_id, st.float_column_indices.length)]
          float_column_indices := st.float_column_indices ++ [idx]
          next_id := st.next_id + 1 }

/-- The third loop of `SetupColumns` (tsv_data_store.cc lines 142-150):
string (categorical) columns, with their own `string_column_indices_`. -/
def setupString (hmap : String → Option Nat) :
    List String → SetupState → Except String SetupState
  | [], st => .ok st
  | name :: rest, st =>
    match hmap name with
    | none => .error ("Failed to find " ++ name ++ " in header file.")
    | some idx =>
      setupString hmap rest
        { st with
          column_map := mapUpdate st.column_map name st.next_id
          string_columns :=
            st.string_columns ++ [(st.next_id, st.string_column_indices.length)]
          string_column_indices := st.string_column_indices ++ [idx]
          next_id := st.next_id + 1 }

/-- The function `TSVDataStore::SetupColumns` (tsv_data_store.cc lines 112-151), given the
header file's contents: split the header on tabs, build the trimmed
name-to-position map, then process the three configured kind lists in
order (binned floats, raw floats, strings).  A configured name absent
from the header map is a fatal `CHECK` failure, modelled as `.error`. -/
def setupColumns (header_contents : String) (config : TSVDataConfig) :
    Except String SetupState :=
  let headers := stringsSplit header_contents '\t'
  let hmap := buildHeaderMap headers 0 emptyHeaderMap
  (setupBinned hmap config.binned_float_column initSetupState).bind fun st =>
    (setupRaw hmap config.raw_float_column st).bind fun st =>
      setupString hmap config.string_column st

/-- A file system: path to contents; `none` means the file does not exist
(`FileExists` / `ReadFileToStringOrDie` from `src/utils`, external). -/
def FileSys : Type := String → Option String

def fileExists (fs : FileSys) (p : String) : Bool := (fs p).isSome

/-- The task-submission loop of `LoadTSVs` (tsv_data_store.cc lines 59-63):
for each file index `i` in order, `CHECK(FileExists(tsvs[i]))` — a fatal
abort if the file is missing — then enqueue the parse task for `i`.
Returns the indices whose parse tasks were enqueued before the loop
finished or aborted, and the index of the missing file if the loop
aborted. -/
def submitParseTasks (fs : FileSys) : List String → Nat → List Nat × Option Nat
  | [], _ => ([], none)
  | tsv :: rest, i =>
    if fileExists fs tsv then
      let (subs, err) := submitParseTasks fs rest (i + 1)
      (i :: subs, err)
    else
      ([], some i)

/-- The sequential prefix of `TSVDataStore::LoadTSVs`
(tsv_data_store.cc lines 49-63): read the header file
(`ReadFileToStringOrDie`), run `SetupColumns`, then run the
check-and-enqueue loop over the data files.  Returns the list of file
indices whose parse tasks were enqueued, together with either the fatal
error or the resolved schema. -/
def loadPrepare (fs : FileSys) (header_file : String) (tsvs : List String)
    (config : TSVDataConfig) : List Nat × Except String SetupState :=
  match fs header_file with
  | none => ([], .error ("Failed to read " ++ header_file ++ "."))
  | some contents =>
    match setupColumns contents config with
    | .error e => ([], .error e)
    | .ok st =>
      match submitParseTasks fs tsvs 0 with
      | (subs, some j) =>
        (subs, .error ("TSV " ++ tsvs.getD j "" ++ " does not exist."))
      | (subs, none) => (subs, .ok st)

/-! ## The row-block parser (external collaborator, modelled from the spec) -/

/-- The numeric value of a digit string (most significant digit first). -/
def digitsVal (l : List Char) : Nat :=
  l.foldl (fun acc c => acc * 10 + (c.toNat - 48)) 0

/-- Modelled from the spec: numeric cell parsing used by the external
`TSVBlock` parser.  Numeric values are represented exactly as rationals;
a nonnegative decimal `w.f` denotes `(w * 10 ^ len f + f) / 10 ^ len f`. -/
def parseDecimalNonneg (l : List Char) : ℚ :=
  match splitOnChar '.' l with
  | [w] => mkRat (digitsVal w) 1
  | [w, f] => mkRat (digitsVal w * 10 ^ f.length + digitsVal f) (10 ^ f.length)
  | _ => 0

/-- Modelled from the spec: decimal cell parsing with an optional leading
minus sign. -/
def parseDecimal (s : String) : ℚ :=
  match s.toList with
  | '-' :: rest => mkRat (-(parseDecimalNonneg rest).num) (parseDecimalNonneg rest).den
  | l => parseDecimalNonneg l

/-- A row block: the parsed, columnar contents of one input file.  For every
configured numeric column (indexed by its dense float slot) a sequence of
numeric values, one per row; likewise string values for every configured
categorical column. -/
structure TSVBlock where
  float_columns : List (List ℚ)
  string_columns : List (List String)
deriving DecidableEq

def emptyBlock : TSVBlock := { float_columns := [], string_columns := [] }

/-- Modelled from the spec: the external Row Block Parser
(`TSVBlock(tsv, float_column_indices_, string_column_indices_)`, class
`TSVBlock` is not under src/).  Per the spec's collaborator contract it is
`parse(file_path, numeric_slot_positions, categorical_slot_positions) ->
Block`, purely a function of one file and the resolved slot layout,
producing one entry per row with slot ordering matching the layout handed
in: slot `k` of `float_columns` holds, for every row of the file, the
parsed value of the cell at source-header position `floatIdx[k]`. -/
def makeTSVBlock (contents : String) (floatIdx stringIdx : List Nat) : TSVBlock :=
  let rows := ((stringsSplit contents '\n').filter (fun l => l ≠ "")).map
    (fun l => stringsSplit l '\t')
  { float_columns := floatIdx.map (fun j => rows.map (fun r => parseDecimal (r.getD j "")))
    string_columns := stringIdx.map (fun j => rows.map (fun r => r.getD j "")) }

/-! ## The concurrent load machine

`LoadTSVs` (lines 56-77), `LoadBlock` (lines 40-47), `ProcessBlock`
(lines 83-97) and `Finalize` (lines 99-110) form a concurrent pipeline:
parse tasks complete in arbitrary order and install blocks into indexed
slots; the controlling thread consumes slot `i` only after slot `i` is
populated and only after the per-column fold tasks of block `i - 1` have
been joined (the scoped `ThreadPool` of `ProcessBlock` joins on scope
exit); `Finalize` submits one task per accumulator after the consume loop.

Modelled from the spec: the `ThreadPool` (not under src/) runs submitted
tasks in arbitrary order and its scoped destruction joins all submitted
work before the scope is released.

The machine below makes every interleaving of these task completions a
schedule (`List Ev`); the orchestrator's waits are the enabledness guards
of `step`. -/

/-- A reference to one configured accumulator: its kind and its position in
that kind's accumulator list. -/
inductive AccRef where
  | binned (k : Nat)
  | raw (k : Nat)
  | string (k : Nat)
deriving DecidableEq

/-- Contents of one accumulator: the per-row values accepted so far
(numeric for the two float kinds, strings for the categorical kind). -/
inductive Slice where
  | fl (xs : List ℚ)
  | st (xs : List String)
deriving DecidableEq

def Slice.app : Slice → Slice → Slice
  | .fl a, .fl b => .fl (a ++ b)
  | .st a, .st b => .st (a ++ b)
  | a, _ => a

/-- An observable call on an accumulator: `accept r i` is the `Add` call
feeding block `i`'s slice into accumulator `r`; `finalize r` is the
`Finalize` call on accumulator `r`. -/
inductive Event where
  | accept (r : AccRef) (blockIdx : Nat)
  | finalize (r : AccRef)
deriving DecidableEq

def Event.isAccept : Event → Bool
  | .accept _ _ => true
  | .finalize _ => false

def Event.isAcceptOf (r : AccRef) : Event → Bool
  | .accept r' _ => r' = r
  | .finalize _ => false

/-- The fixed data of one load: the parsed block of each input file (in the
caller-supplied file order) and the resolved schema. -/
structure Pipeline where
  blocks : List TSVBlock
  setup : SetupState

def Pipeline.n (P : Pipeline) : Nat := P.blocks.length
def Pipeline.lenB (P : Pipeline) : Nat := P.setup.binned_float_columns.length
def Pipeline.lenR (P : Pipeline) : Nat := P.setup.raw_float_columns.length
def Pipeline.lenS (P : Pipeline) : Nat := P.setup.string_columns.length

/-- The per-column fold tasks submitted by `ProcessBlock` for one block, in
its enqueue order (binned floats, then raw floats, then strings;
tsv_data_store.cc lines 85-96). -/
def foldRefs (P : Pipeline) : List AccRef :=
  (List.range P.lenB).map .binned ++ (List.range P.lenR).map .raw
    ++ (List.range P.lenS).map .string

/-- The finalize tasks submitted by `Finalize`, in its enqueue order (binned
floats, then strings, then raw floats; tsv_data_store.cc lines 101-109). -/
def finRefs (P : Pipeline) : List AccRef :=
  (List.range P.lenB).map .binned ++ (List.range P.lenS).map .string
    ++ (List.range P.lenR).map .raw

/-- The dense float slot of binned accumulator `k`
(the second component recorded in `binned_float_columns_`). -/
def slotB (P : Pipeline) (k : Nat) : Nat := (P.setup.binned_float_columns.getD k (0, 0)).2

def slotR (P : Pipeline) (k : Nat) : Nat := (P.setup.raw_float_columns.getD k (0, 0)).2

def slotS (P : Pipeline) (k : Nat) : Nat := (P.setup.string_columns.getD k (0, 0)).2

/-- The slice `block->float_columns()[slot]` of block `i`. -/
def blockFloats (P : Pipeline) (i slot : Nat) : List ℚ :=
  (P.blocks.getD i emptyBlock).float_columns.getD slot []

/-- The slice `block->string_columns()[slot]` of block `i`. -/
def blockStrings (P : Pipeline) (i slot : Nat) : List String :=
  (P.blocks.getD i emptyBlock).string_columns.getD slot []

/-- The slice of block `i` that accumulator `r`'s `Add` call consumes
(tsv_data_store.cc lines 85-96). -/
def sliceOf (P : Pipeline) (i : Nat) : AccRef → Slice
  | .binned k => .fl (blockFloats P i (slotB P k))
  | .raw k => .fl (blockFloats P i (slotR P k))
  | .string k => .st (blockStrings P i (slotS P k))

/-- The empty contents of accumulator `r`. -/
def emptySlice : AccRef → Slice
  | .binned _ => .fl []
  | .raw _ => .fl []
  | .string _ => .st []

/-- The mutable state of one load run.

`completed i` records whether file `i`'s parse task has installed its
block (`LoadBlock`, lines 40-47); `next` is the consume loop's index
(line 65); `cur` is the block whose fold tasks are in flight;
`foldPending` are the not-yet-completed `Add` tasks of block `cur`
(the scoped pool of `ProcessBlock`); `finPhase` / `finPending` model the
`Finalize` fan-out; `contents` is each accumulator's accepted data;
`trace` is the chronological list of accumulator calls observed so far. -/
structure LoadState where
  completed : List Bool
  next : Nat
  cur : Option Nat
  foldPending : List AccRef
  finPhase : Bool
  finPending : List AccRef
  contents : AccRef → Slice
  trace : List Event

def initLoadState (P : Pipeline) : LoadState :=
  { completed := List.replicate P.n false
    next := 0
    cur := none
    foldPending := []
    finPhase := false
    finPending := []
    contents := emptySlice
    trace := [] }

/-- Scheduler events: completion of the parse task of file `i`; the
controlling thread taking the next block and fanning out its fold tasks;
completion of one fold (`Add`) task; the controlling thread entering
`Finalize` and fanning out its tasks; completion of one finalize task. -/
inductive Ev where
  | parseDone (i : Nat)
  | consume
  | acceptDone (r : AccRef)
  | finStart
  | finDone (r : AccRef)
deriving DecidableEq

/-- One transition of the load machine; `none` when the event is not
enabled in state `s`.

* `parseDone i`: file `i`'s parse task completes (arbitrary order, once).
* `consume`: enabled only when slot `next` is populated (the condition
  wait of line 70) and all fold tasks of the previous block have joined
  (the `ProcessBlock` pool is destroyed before the loop advances);
  fans out one `Add` task per accumulator.
* `acceptDone r`: one in-flight `Add` task completes, appending block
  `cur`'s slice for `r` to `r`'s contents.
* `finStart`: enabled only after the consume loop is over (`next = n`) and
  the last block's folds have joined; fans out one finalize task per
  accumulator (in `Finalize`'s enqueue order).
* `finDone r`: one finalize task completes. -/
def step (P : Pipeline) (s : LoadState) : Ev → Option LoadState
  | .parseDone i =>
    if i < s.completed.length ∧ s.completed.getD i true = false then
      some { s with completed := s.completed.set i true }
    else none
  | .consume =>
    if s.next < P.n ∧ s.completed.getD s.next false = true ∧ s.foldPending = [] then
      some { s with next := s.next + 1, cur := some s.next, foldPending := foldRefs P }
    else none
  | .acceptDone r =>
    match s.cur with
    | none => none
    | some i =>
      if r ∈ s.foldPending then
        some { s with
          foldPending := s.foldPending.erase r
          contents := fun r' =>
            if r' = r then (s.contents r).app (sliceOf P i r) else s.contents r'
          trace := s.trace ++ [.accept r i] }
      else none
  | .finStart =>
    if s.next = P.n ∧ s.foldPending = [] ∧ s.finPhase = false then
      some { s with finPhase := true, finPending := finRefs P }
    else none
  | .finDone r =>
    if s.finPhase = true ∧ r ∈ s.finPending then
      some { s with
        finPending := s.finPending.erase r
        trace := s.trace ++ [.finalize r] }
    else none

/-- Run a schedule of events from a state; `none` if any event is not
enabled when its turn comes. -/
def execRun (P : Pipeline) (s : LoadState) : List Ev → Option LoadState
  | [] => some s
  | e :: evs =>
    match step P s e with
    | none => none
    | some s' => execRun P s' evs

/-- The load has fully completed: the finalize fan-out has been reached and
every finalize task has been joined. -/
def isDone (s : LoadState) : Bool := s.finPhase && s.finPending.isEmpty

/-- The pipeline determined by a prepared load: block `i` is the parse of
file `i`'s contents against the resolved slot layout. -/
def mkPipeline (fs : FileSys) (tsvs : List String) (st : SetupState) : Pipeline :=
  { blocks := tsvs.map fun t =>
      makeTSVBlock ((fs t).getD "") st.float_column_indices st.string_column_indices
    setup := st }

/-- One particular schedule: each file parses just in time, blocks are
consumed in order, fold and finalize tasks complete in enqueue order. -/
def canonicalSchedule (P : Pipeline) : List Ev :=
  ((List.range P.n).map fun i =>
      [Ev.parseDone i, Ev.consume] ++ (foldRefs P).map Ev.acceptDone).flatten
    ++ [Ev.finStart] ++ (finRefs P).map Ev.finDone

/-- The whole of `TSVDataStore::LoadTSVs` end to end under the canonical schedule:
prepare (header read, `SetupColumns`, existence checks and submissions),
then run the machine to completion. -/
def loadTSVsCanonical (fs : FileSys) (header_file : String) (tsvs : List String)
    (config : TSVDataConfig) : Except String LoadState :=
  match loadPrepare fs header_file tsvs config with
  | (_, .error e) => .error e
  | (_, .ok st) =>
    match execRun (mkPipeline fs tsvs st) (initLoadState (mkPipeline fs tsvs st))
        (canonicalSchedule (mkPipeline fs tsvs st)) with
    | none => .error "stuck schedule"
    | some s => .ok s

/-! ## Specification-side auxiliary definitions

These are not translations of source functions; they are the vocabulary in
which the theorems below state properties of the translations above. -/

/-- The index of the **last** occurrence of `name` in a list. -/
def lastOcc : List String → String → Option Nat
  | [], _ => none
  | h :: t, name =>
    match lastOcc t name with
    | some j => some (j + 1)
    | none => if h = name then some 0 else none

/-- The position the schema resolver associates with a configured name:
the header map built from the tab-split (untrimmed-name) header line. -/
def headerPos (header_contents : String) (name : String) : Option Nat :=
  buildHeaderMap (stringsSplit header_contents '\t') 0 emptyHeaderMap name

/-- How many blocks have been fully accepted by accumulator `r` in state
`s`: every consumed block except the current one if `r`'s `Add` task for
the current block is still pending. -/
def foldedCount (s : LoadState) (r : AccRef) : Nat :=
  match s.cur with
  | none => s.next
  | some i => if r ∈ s.foldPending then i else i + 1

/-- The contents accumulator `r` holds after accepting the slices of the
first `k` blocks, in input-file order. -/
def acceptedSlices (P : Pipeline) (r : AccRef) (k : Nat) : Slice :=
  match r with
  | .binned j => .fl (((List.range k).map fun i => blockFloats P i (slotB P j)).flatten)
  | .raw j => .fl (((List.range k).map fun i => blockFloats P i (slotR P j)).flatten)
  | .string j => .st (((List.range k).map fun i => blockStrings P i (slotS P j)).flatten)

/-- The inductive invariant of the load machine, preserved by every step
from the initial state. -/
structure Inv (P : Pipeline) (s : LoadState) : Prop where
  hlen : s.completed.length = P.n
  hnext : s.next ≤ P.n
  hcur : ∀ i, s.cur = some i → s.next = i + 1
  hcurNone : s.cur = none → s.foldPending = []
  hfoldSub : s.foldPending.Sublist (foldRefs P)
  hfinNoFold : s.finPhase = true → s.next = P.n ∧ s.foldPending = []
  hfinSub : s.finPending.Sublist (finRefs P)
  hfinOff : s.finPhase = false → s.finPending = []
  hcontents : ∀ r, r ∈ foldRefs P → s.contents r = acceptedSlices P r (foldedCount s r)
  htraceSplit : ∃ ta tf, s.trace = ta ++ tf ∧ (∀ e ∈ ta, e.isAccept = true)
    ∧ (∀ e ∈ tf, e.isAccept = false) ∧ (s.finPhase = false → tf = [])
  htraceAcc : ∀ r, r ∈ foldRefs P →
    s.trace.filter (Event.isAcceptOf r) = (List.range (foldedCount s r)).map (Event.accept r)
  htraceFin : ∀ r, s.trace.count (Event.finalize r)
    = (if s.finPhase then (finRefs P).count r - s.finPending.count r else 0)

/-! ## Concrete fixtures used by witnesses and counterexamples -/

/-- The spec's example scenario: header `id x y label`, two one-row data
files, order `[f1, f2]`. -/
def fs7 : FileSys := fun p =>
  if p = "header" then some "id\tx\ty\tlabel"
  else if p = "f1" then some "1\t0.5\t1.2\tA"
  else if p = "f2" then some "2\t0.7\t0.9\tB"
  else none

def cfg7 : TSVDataConfig :=
  { binned_float_column := [], raw_float_column := ["x", "y"], string_column := ["label"] }

def st1 : SetupState := (setupColumns "id\tx\ty\tlabel" cfg7).toOption.getD initSetupState

def P1 : Pipeline := mkPipeline fs7 ["f1", "f2"] st1

/-- A schedule in which file 2's parse task finishes before file 1's. -/
def sched1 : List Ev :=
  [Ev.parseDone 1, Ev.parseDone 0, Ev.consume] ++ (foldRefs P1).map Ev.acceptDone
    ++ [Ev.consume] ++ (foldRefs P1).map Ev.acceptDone
    ++ [Ev.finStart] ++ (finRefs P1).map Ev.finDone

def s1 : LoadState := (execRun P1 (initLoadState P1) sched1).getD (initLoadState P1)

/-- File system for the missing-file scenario: the header and `a` exist,
`b` does not. -/
def fsC2 : FileSys := fun p =>
  if p = "header" then some "x" else if p = "a" then some "1" else none

def cfgC2 : TSVDataConfig :=
  { binned_float_column := [], raw_float_column := ["x"], string_column := [] }

/-- Header whose trimmed name `x` occurs at positions 0 and 2. -/
def hc9 : String := "x\ty\tx"

def cfg9 : TSVDataConfig :=
  { binned_float_column := [], raw_float_column := ["x"], string_column := [] }

def hc4 : String := "id\tx\ty\tlabel"

def cfg4 : TSVDataConfig :=
  { binned_float_column := ["y"], raw_float_column := ["x"], string_column := ["label"] }

/-- Configuration naming `x` twice (duplicate configured name). -/
def cfg6 : TSVDataConfig :=
  { binned_float_column := [], raw_float_column := ["x", "x"], string_column := [] }

def fs10 : FileSys := fun p => if p = "header" then some "a\tb" else none

def cfg10 : TSVDataConfig :=
  { binned_float_column := [], raw_float_column := ["a"], string_column := ["b"] }

def st10 : SetupState := (setupColumns "a\tb" cfg10).toOption.getD initSetupState

/-- Configuration naming a column `zz` that no header provides. -/
def cfg5 : TSVDataConfig :=
  { binned_float_column := [], raw_float_column := ["zz"], string_column := [] }

def fs5 : FileSys := fun p => if p = "header" then some "a\tb" else some "1\t2"

def st6 : SetupState := (setupColumns "x" cfg6).toOption.getD initSetupState

def st9 : SetupState := (setupColumns hc9 cfg9).toOption.getD initSetupState

def stC2 : SetupState := (setupColumns "x" cfgC2).toOption.getD initSetupState

/-! ## Lemmas about schema resolution -/

theorem buildHeaderMap_eq (headers : List String) (i : Nat) (m : String → Option Nat)
    (name : String) :
    buildHeaderMap headers i m name =
      match lastOcc (headers.map trimWhiteSpace) name with
      | some j => some (i + j)
      | none => m name := by
  induction headers generalizing i m with
  | nil => simp [buildHeaderMap, lastOcc]
  | cons h t ih =>
    simp only [buildHeaderMap, List.map_cons, lastOcc]
    rw [ih]
    cases hlo : lastOcc (t.map trimWhiteSpace) name with
    | some j =>
      simp only
      congr 1
      omega
    | none =>
      simp only [mapUpdate]
      by_cases hname : trimWhiteSpace h = name
      · simp [hname]
      · simp only [if_neg hname]
        rw [if_neg (fun h' => hname h'.symm)]

theorem lastOcc_isSome_iff (l : List String) (name : String) :
    (lastOcc l name).isSome = true ↔ name ∈ l := by
  induction l with
  | nil => simp [lastOcc]
  | cons h t ih =>
    simp only [lastOcc, List.mem_cons]
    cases hlo : lastOcc t name with
    | some j => simp [hlo] at ih ⊢; exact Or.inr ih
    | none =>
      simp [hlo] at ih ⊢
      by_cases hname : h = name
      · simp [hname]
      · simp [hname, ih]
        exact fun h' => hname h'.symm

theorem lastOcc_spec (l : List String) (name : String) (j : Nat)
    (h : lastOcc l name = some j) :
    l[j]? = some name ∧ ∀ k, j < k → l[k]? ≠ some name := by
  induction l generalizing j with
  | nil => simp [lastOcc] at h
  | cons hd t ih =>
    simp only [lastOcc] at h
    cases hlo : lastOcc t name with
    | some j' =>
      rw [hlo] at h
      obtain rfl : j' + 1 = j := by simpa using h
      obtain ⟨h1, h2⟩ := ih j' hlo
      refine ⟨by simpa using h1, ?_⟩
      intro k hk
      cases k with
      | zero => omega
      | succ k' =>
        simp only [List.getElem?_cons_succ]
        exact h2 k' (by omega)
    | none =>
      rw [hlo] at h
      by_cases hname : hd = name
      · simp only [hname, if_pos rfl] at h
        obtain rfl : 0 = j := by simpa using h
        refine ⟨by simp [hname], ?_⟩
        intro k hk
        cases k with
        | zero => omega
        | succ k' =>
          simp only [List.getElem?_cons_succ]
          intro hc
          have : name ∈ t := by
            have := List.getElem?_eq_some_iff.1 hc
            obtain ⟨hw, hv⟩ := this
            exact hv ▸ List.getElem_mem hw
          have := (lastOcc_isSome_iff t name).2 this
          rw [hlo] at this
          simp at this
      · simp [hname] at h

theorem lastOcc_eq_of (l : List String) (name : String) (j : Nat)
    (hj : l[j]? = some name) (hlast : ∀ k, j < k → l[k]? ≠ some name) :
    lastOcc l name = some j := by
  have hmem : name ∈ l := by
    obtain ⟨hw, hv⟩ := List.getElem?_eq_some_iff.1 hj
    exact hv ▸ List.getElem_mem hw
  have hsome := (lastOcc_isSome_iff l name).2 hmem
  obtain ⟨j', hj'⟩ := Option.isSome_iff_exists.1 hsome
  obtain ⟨h1, h2⟩ := lastOcc_spec l name j' hj'
  rcases Nat.lt_trichotomy j j' with h | h | h
  · exact absurd h1 (hlast j' h)
  · rw [hj', h]
  · exact absurd hj (h2 j h)

theorem headerPos_isSome_iff (hc name : String) :
    (headerPos hc name).isSome = true
      ↔ name ∈ (stringsSplit hc '\t').map trimWhiteSpace := by
  unfold headerPos
  rw [buildHeaderMap_eq]
  cases h : lastOcc ((stringsSplit hc '\t').map trimWhiteSpace) name with
  | some j =>
    simp only [h]
    have := (lastOcc_isSome_iff ((stringsSplit hc '\t').map trimWhiteSpace) name).1 (by simp [h])
    simpa using this
  | none =>
    simp only [h, emptyHeaderMap]
    constructor
    · intro hfalse; simp at hfalse
    · intro hmem
      have := (lastOcc_isSome_iff ((stringsSplit hc '\t').map trimWhiteSpace) name).2 hmem
      rw [h] at this
      simp at this

theorem setupBinned_sound (hmap : String → Option Nat) (names : List String)
    (st : SetupState) (h : ∀ n ∈ names, (hmap n).isSome = true) :
    ∃ st', setupBinned hmap names st = .ok st'
      ∧ st'.binned_float_columns = st.binned_float_columns
          ++ (List.range names.length).map
              (fun k => (st.next_id + k, st.float_column_indices.length + k))
      ∧ st'.raw_float_columns = st.raw_float_columns
      ∧ st'.string_columns = st.string_columns
      ∧ st'.float_column_indices = st.float_column_indices
          ++ names.map (fun n => (hmap n).getD 0)
      ∧ st'.string_column_indices = st.string_column_indices
      ∧ st'.next_id = st.next_id + names.length := by
  induction names generalizing st with
  | nil => exact ⟨st, rfl, by simp, rfl, rfl, by simp, rfl, by simp⟩
  | cons name rest ih =>
    obtain ⟨idx, hidx⟩ := Option.isSome_iff_exists.1 (h name (by simp))
    obtain ⟨st', hok, h1, h2, h3, h4, h5, h6⟩ :=
      ih { st with
            column_map := mapUpdate st.column_map name st.next_id
            binned_float_columns :=
              st.binned_float_columns ++ [(st.next_id, st.float_column_indices.length)]
            float_column_indices := st.float_column_indices ++ [idx]
            next_id := st.next_id + 1 }
        (fun n hn => h n (by simp [hn]))
    refine ⟨st', by simpa [setupBinned, hidx] using hok, ?_, h2, h3, ?_, h5, ?_⟩
    · rw [h1]
      simp only [List.length_cons, List.range_succ_eq_map, List.map_cons, List.map_map,
        List.append_assoc, List.singleton_append, List.length_append, List.length_cons]
      congr 2
      apply List.map_congr_left
      intro a _
      simp [Function.comp, Nat.succ_eq_add_one]
      constructor <;> omega
    · rw [h4]
      simp [hidx]
    · rw [h6]
      simp
      omega

theorem setupBinned_names (hmap : String → Option Nat) (names : List String)
    (st st' : SetupState) (hok : setupBinned hmap names st = .ok st') :
    ∀ n ∈ names, (hmap n).isSome = true := by
  induction names generalizing st with
  | nil => simp
  | cons name rest ih =>
    simp only [setupBinned] at hok
    cases hidx : hmap name with
    | none => rw [hidx] at hok; cases hok
    | some idx =>
      rw [hidx] at hok
      intro n hn
      rcases List.mem_cons.1 hn with rfl | hn'
      · simp [hidx]
      · exact ih _ hok n hn'

theorem setupRaw_sound (hmap : String → Option Nat) (names : List String)
    (st : SetupState) (h : ∀ n ∈ names, (hmap n).isSome = true) :
    ∃ st', setupRaw hmap names st = .ok st'
      ∧ st'.raw_float_columns = st.raw_float_columns
          ++ (List.range names.length).map
              (fun k => (st.next_id + k, st.float_column_indices.length + k))
      ∧ st'.binned_float_columns = st.binned_float_columns
      ∧ st'.string_columns = st.string_columns
      ∧ st'.float_column_indices = st.float_column_indices
          ++ names.map (fun n => (hmap n).getD 0)
      ∧ st'.string_column_indices = st.string_column_indices
      ∧ st'.next_id = st.next_id + names.length := by
  induction names generalizing st with
  | nil => exact ⟨st, rfl, by simp, rfl, rfl, by simp, rfl, by simp⟩
  | cons name rest ih =>
    obtain ⟨idx, hidx⟩ := Option.isSome_iff_exists.1 (h name (by simp))
    obtain ⟨st', hok, h1, h2, h3, h4, h5, h6⟩ :=
      ih { st with
            column_map := mapUpdate st.column_map name st.next_id
            raw_float_columns :=
              st.raw_float_columns ++ [(st.next_id, st.float_column_indices.length)]
            float_column_indices := st.float_column_indices ++ [idx]
            next_id := st.next_id + 1 }
        (fun n hn => h n (by simp [hn]))
    refine ⟨st', by simpa [setupRaw, hidx] using hok, ?_, h2, h3, ?_, h5, ?_⟩
    · rw [h1]
      simp only [List.length_cons, List.range_succ_eq_map, List.map_cons, List.map_map,
        List.append_assoc, List.singleton_append, List.length_append, List.length_cons]
      congr 2
      apply List.map_congr_left
      intro a _
      simp [Function.comp, Nat.succ_eq_add_one]
      constructor <;> omega
    · rw [h4]
      simp [hidx]
    · rw [h6]
      simp
      omega

theorem setupRaw_names (hmap : String → Option Nat) (names : List String)
    (st st' : SetupState) (hok : setupRaw hmap names st = .ok st') :
    ∀ n ∈ names, (hmap n).isSome = true := by
  induction names generalizing st with
  | nil => simp
  | cons name rest ih =>
    simp only [setupRaw] at hok
    cases hidx : hmap name with
    | none => rw [hidx] at hok; cases hok
    | some idx =>
      rw [hidx] at hok
      intro n hn
      rcases List.mem_cons.1 hn with rfl | hn'
      · simp [hidx]
      · exact ih _ hok n hn'

theorem setupString_sound (hmap : String → Option Nat) (names : List String)
    (st : SetupState) (h : ∀ n ∈ names, (hmap n).isSome = true) :
    ∃ st', setupString hmap names st = .ok st'
      ∧ st'.string_columns = st.string_columns
          ++ (List.range names.length).map
              (fun k => (st.next_id + k, st.string_column_indices.length + k))
      ∧ st'.binned_float_columns = st.binned_float_columns
      ∧ st'.raw_float_columns = st.raw_float_columns
      ∧ st'.string_column_indices = st.string_column_indices
          ++ names.map (fun n => (hmap n).getD 0)
      ∧ st'.float_column_indices = st.float_column_indices
      ∧ st'.next_id = st.next_id + names.length := by
  induction names generalizing st with
  | nil => exact ⟨st, rfl, by simp, rfl, rfl, by simp, rfl, by simp⟩
  | cons name rest ih =>
    obtain ⟨idx, hidx⟩ := Option.isSome_iff_exists.1 (h name (by simp))
    obtain ⟨st', hok, h1, h2, h3, h4, h5, h6⟩ :=
      ih { st with
            column_map := mapUpdate st.column_map name st.next_id
            string_columns :=
              st.string_columns ++ [(st.next_id, st.string_column_indices.length)]
            string_column_indices := st.string_column_indices ++ [idx]
            next_id := st.next_id + 1 }
        (fun n hn => h n (by simp [hn]))
    refine ⟨st', by simpa [setupString, hidx] using hok, ?_, h2, h3, ?_, h5, ?_⟩
    · rw [h1]
      simp only [List.length_cons, List.range_succ_eq_map, List.map_cons, List.map_map,
        List.append_assoc, List.singleton_append, List.length_append, List.length_cons]
      congr 2
      apply List.map_congr_left
      intro a _
      simp [Function.comp, Nat.succ_eq_add_one]
      constructor <;> omega
    · rw [h4]
      simp [hidx]
    · rw [h6]
      simp
      omega

theorem setupString_names (hmap : String → Option Nat) (names : List String)
    (st st' : SetupState) (hok : setupString hmap names st = .ok st') :
    ∀ n ∈ names, (hmap n).isSome = true := by
  induction names generalizing st with
  | nil => simp
  | cons name rest ih =>
    simp only [setupString] at hok
    cases hidx : hmap name with
    | none => rw [hidx] at hok; cases hok
    | some idx =>
      rw [hidx] at hok
      intro n hn
      rcases List.mem_cons.1 hn with rfl | hn'
      · simp [hidx]
      · exact ih _ hok n hn'

theorem setupColumns_sound (hc : String) (config : TSVDataConfig)
    (h : ∀ n ∈ config.binned_float_column ++ config.raw_float_column ++ config.string_column,
      (headerPos hc n).isSome = true) :
    ∃ st, setupColumns hc config = .ok st
      ∧ st.binned_float_columns
          = (List.range config.binned_float_column.length).map (fun k => (k, k))
      ∧ st.raw_float_columns = (List.range config.raw_float_column.length).map
          (fun k => (config.binned_float_column.length + k,
                     config.binned_float_column.length + k))
      ∧ st.string_columns = (List.range config.string_column.length).map
          (fun k => (config.binned_float_column.length + config.raw_float_column.length + k, k))
      ∧ st.float_column_indices
          = (config.binned_float_column ++ config.raw_float_column).map
              (fun n => (headerPos hc n).getD 0)
      ∧ st.string_column_indices
          = config.string_column.map (fun n => (headerPos hc n).getD 0)
      ∧ st.next_id = config.binned_float_column.length + config.raw_float_column.length
          + config.string_column.length := by
  obtain ⟨stB, hokB, hB1, hB2, hB3, hB4, hB5, hB6⟩ :=
    setupBinned_sound (headerPos hc) config.binned_float_column initSetupState
      (fun n hn => h n (by simp [hn]))
  obtain ⟨stR, hokR, hR1, hR2, hR3, hR4, hR5, hR6⟩ :=
    setupRaw_sound (headerPos hc) config.raw_float_column stB
      (fun n hn => h n (by simp [hn]))
  obtain ⟨stS, hokS, hS1, hS2, hS3, hS4, hS5, hS6⟩ :=
    setupString_sound (headerPos hc) config.string_column stR
      (fun n hn => h n (by simp [hn]))
  have hfciB : stB.float_column_indices
      = config.binned_float_column.map (fun n => (headerPos hc n).getD 0) := by
    rw [hB4]; simp [initSetupState]
  have hlenB : stB.float_column_indices.length = config.binned_float_column.length := by
    rw [hfciB]; simp
  have hnidB : stB.next_id = config.binned_float_column.length := by
    rw [hB6]; simp [initSetupState]
  have hfciR : stR.float_column_indices
      = (config.binned_float_column ++ config.raw_float_column).map
          (fun n => (headerPos hc n).getD 0) := by
    rw [hR4, hfciB]; simp
  have hnidR : stR.next_id
      = config.binned_float_column.length + config.raw_float_column.length := by
    rw [hR6, hnidB]
  refine ⟨stS, ?_, ?_, ?_, ?_, ?_, ?_, ?_⟩
  · show setupColumns hc config = .ok stS
    unfold setupColumns
    show (setupBinned (headerPos hc) config.binned_float_column initSetupState).bind _ = _
    rw [hokB]
    show (setupRaw (headerPos hc) config.raw_float_column stB).bind _ = _
    rw [hokR]
    exact hokS
  · rw [hS2, hR2, hB1]
    simp [initSetupState]
  · rw [hS3, hR1, hB2]
    simp [initSetupState, hnidB, hlenB]
  · rw [hS1, hR3, hB3]
    simp [initSetupState, hnidR, hR5, hB5]
  · rw [hS5, hfciR]
  · rw [hS4, hR5, hB5]
    simp [initSetupState]
  · rw [hS6, hnidR]

theorem setupColumns_names (hc : String) (config : TSVDataConfig) (st : SetupState)
    (hok : setupColumns hc config = .ok st) :
    ∀ n ∈ config.binned_float_column ++ config.raw_float_column ++ config.string_column,
      (headerPos hc n).isSome = true := by
  have hun : setupColumns hc config
      = (setupBinned (headerPos hc) config.binned_float_column initSetupState).bind fun s1 =>
          (setupRaw (headerPos hc) config.raw_float_column s1).bind fun s2 =>
            setupString (headerPos hc) config.string_column s2 := rfl
  rw [hun] at hok
  cases hB : setupBinned (headerPos hc) config.binned_float_column initSetupState with
  | error e => rw [hB] at hok; cases hok
  | ok s1 =>
    rw [hB] at hok
    replace hok : (setupRaw (headerPos hc) config.raw_float_column s1).bind
        (fun s2 => setupString (headerPos hc) config.string_column s2) = .ok st := hok
    cases hR : setupRaw (headerPos hc) config.raw_float_column s1 with
    | error e => rw [hR] at hok; cases hok
    | ok s2 =>
      rw [hR] at hok
      replace hok : setupString (headerPos hc) config.string_column s2 = .ok st := hok
      intro n hn
      rcases List.mem_append.1 hn with hn' | hnS
      · rcases List.mem_append.1 hn' with hnB | hnR
        · exact setupBinned_names _ _ _ _ hB n hnB
        · exact setupRaw_names _ _ _ _ hR n hnR
      · exact setupString_names _ _ _ _ hok n hnS

/-! ## Lemmas about the load machine -/

theorem acceptedSlices_succ (P : Pipeline) (r : AccRef) (k : Nat) :
    acceptedSlices P r (k + 1) = (acceptedSlices P r k).app (sliceOf P k r) := by
  cases r <;> simp [acceptedSlices, sliceOf, Slice.app, List.range_succ]

theorem foldRefs_nodup (P : Pipeline) : (foldRefs P).Nodup := by
  unfold foldRefs
  have hinjB : Function.Injective AccRef.binned := fun a b h => by injection h
  have hinjR : Function.Injective AccRef.raw := fun a b h => by injection h
  have hinjS : Function.Injective AccRef.string := fun a b h => by injection h
  refine List.Nodup.append (List.Nodup.append ?_ ?_ ?_) ?_ ?_
  · exact List.Nodup.map hinjB (List.nodup_range _)
  · exact List.Nodup.map hinjR (List.nodup_range _)
  · intro a ha hb
    obtain ⟨k, _, rfl⟩ := List.mem_map.1 ha
    obtain ⟨j, _, hj⟩ := List.mem_map.1 hb
    simp at hj
  · exact List.Nodup.map hinjS (List.nodup_range _)
  · intro a ha hb
    obtain ⟨j, _, hj⟩ := List.mem_map.1 hb
    rcases List.mem_append.1 ha with ha' | ha'
    · obtain ⟨k, _, rfl⟩ := List.mem_map.1 ha'
      simp at hj
    · obtain ⟨k, _, rfl⟩ := List.mem_map.1 ha'
      simp at hj

theorem finRefs_nodup (P : Pipeline) : (finRefs P).Nodup := by
  unfold finRefs
  have hinjB : Function.Injective AccRef.binned := fun a b h => by injection h
  have hinjR : Function.Injective AccRef.raw := fun a b h => by injection h
  have hinjS : Function.Injective AccRef.string := fun a b h => by injection h
  refine List.Nodup.append (List.Nodup.append ?_ ?_ ?_) ?_ ?_
  · exact List.Nodup.map hinjB (List.nodup_range _)
  · exact List.Nodup.map hinjS (List.nodup_range _)
  · intro a ha hb
    obtain ⟨k, _, rfl⟩ := List.mem_map.1 ha
    obtain ⟨j, _, hj⟩ := List.mem_map.1 hb
    simp at hj
  · exact List.Nodup.map hinjR (List.nodup_range _)
  · intro a ha hb
    obtain ⟨j, _, hj⟩ := List.mem_map.1 hb
    rcases List.mem_append.1 ha with ha' | ha'
    · obtain ⟨k, _, rfl⟩ := List.mem_map.1 ha'
      simp at hj
    · obtain ⟨k, _, rfl⟩ := List.mem_map.1 ha'
      simp at hj

theorem mem_finRefs_iff (P : Pipeline) (r : AccRef) :
    r ∈ finRefs P ↔ r ∈ foldRefs P := by
  simp only [finRefs, foldRefs, List.mem_append]
  tauto

theorem inv_init (P : Pipeline) : Inv P (initLoadState P) := by
  refine ⟨?_, ?_, ?_, ?_, ?_, ?_, ?_, ?_, ?_, ?_, ?_, ?_⟩
  · simp [initLoadState]
  · simp [initLoadState]
  · intro i h
    simp [initLoadState] at h
  · intro _
    rfl
  · exact List.nil_sublist _
  · intro h
    simp [initLoadState] at h
  · exact List.nil_sublist _
  · intro _
    rfl
  · intro r hr
    cases r <;> rfl
  · exact ⟨[], [], rfl, by simp, by simp, fun _ => rfl⟩
  · intro r hr
    rfl
  · intro r
    simp [initLoadState]

theorem inv_step_parse (P : Pipeline) (s : LoadState) (i : Nat) (I : Inv P s) :
    Inv P { s with completed := s.completed.set i true } := by
  obtain ⟨hlen, hnext, hcur, hcurNone, hfoldSub, hfinNoFold, hfinSub, hfinOff,
    hcontents, htraceSplit, htraceAcc, htraceFin⟩ := I
  exact ⟨by simp [hlen], hnext, hcur, hcurNone, hfoldSub, hfinNoFold, hfinSub, hfinOff,
    hcontents, htraceSplit, htraceAcc, htraceFin⟩

theorem inv_step_consume (P : Pipeline) (s : LoadState)
    (hg1 : s.next < P.n) (hg3 : s.foldPending = []) (I : Inv P s) :
    Inv P { s with next := s.next + 1, cur := some s.next, foldPending := foldRefs P } := by
  obtain ⟨hlen, hnext, hcur, hcurNone, hfoldSub, hfinNoFold, hfinSub, hfinOff,
    hcontents, htraceSplit, htraceAcc, htraceFin⟩ := I
  have hold : ∀ r, foldedCount s r = s.next := by
    intro r
    cases hc : s.cur with
    | none => simp [foldedCount, hc]
    | some i =>
      simp [foldedCount, hc, hg3]
      exact (hcur i hc).symm
  have hnew : ∀ r, r ∈ foldRefs P →
      foldedCount
        { s with
          next := s.next + 1
          cur := some s.next
          foldPending := foldRefs P } r = s.next := by
    intro r hr
    simp [foldedCount, hr]
  refine ⟨hlen, hg1, ?_, ?_, ?_, ?_, hfinSub, hfinOff, ?_, ?_, ?_, ?_⟩
  · intro i h
    simp only at h
    obtain rfl := Option.some.inj h
    rfl
  · intro h
    simp at h
  · exact List.Sublist.refl _
  · intro hfin
    exact absurd (hfinNoFold hfin).1 (by omega)
  · intro r hr
    rw [hnew r hr]
    rw [← hold r]
    exact hcontents r hr
  · exact htraceSplit
  · intro r hr
    rw [hnew r hr, ← hold r]
    exact htraceAcc r hr
  · exact htraceFin

theorem inv_step_accept (P : Pipeline) (s : LoadState) (r : AccRef) (i : Nat)
    (hcuri : s.cur = some i) (hrp : r ∈ s.foldPending) (I : Inv P s) :
    Inv P { s with
      foldPending := s.foldPending.erase r
      contents := fun r' =>
        if r' = r then (s.contents r).app (sliceOf P i r) else s.contents r'
      trace := s.trace ++ [.accept r i] } := by
  obtain ⟨hlen, hnext, hcur, hcurNone, hfoldSub, hfinNoFold, hfinSub, hfinOff,
    hcontents, htraceSplit, htraceAcc, htraceFin⟩ := I
  have hpnodup : s.foldPending.Nodup := List.Nodup.sublist hfoldSub (foldRefs_nodup P)
  have hrfold : r ∈ foldRefs P := List.Sublist.mem hrp hfoldSub
  have hfinF : s.finPhase = false := by
    cases hf : s.finPhase with
    | false => rfl
    | true =>
      have := (hfinNoFold hf).2
      rw [this] at hrp
      simp at hrp
  have holdr : foldedCount s r = i := by
    simp [foldedCount, hcuri, hrp]
  have hnewr : foldedCount { s with
      foldPending := s.foldPending.erase r
      contents := fun r' =>
        if r' = r then (s.contents r).app (sliceOf P i r) else s.contents r'
      trace := s.trace ++ [.accept r i] } r = i + 1 := by
    have : r ∉ s.foldPending.erase r := by
      intro hmem
      exact absurd ((List.Nodup.mem_erase_iff hpnodup).1 hmem).1 (by simp)
    simp [foldedCount, hcuri, this]
  have hsame : ∀ r', r' ≠ r → foldedCount { s with
      foldPending := s.foldPending.erase r
      contents := fun r' =>
        if r' = r then (s.contents r).app (sliceOf P i r) else s.contents r'
      trace := s.trace ++ [.accept r i] } r' = foldedCount s r' := by
    intro r' hne
    simp only [foldedCount, hcuri]
    by_cases hmem : r' ∈ s.foldPending
    · rw [if_pos hmem, if_pos ((List.mem_erase_of_ne hne).2 hmem)]
    · rw [if_neg hmem, if_neg (fun hc => hmem ((List.mem_erase_of_ne hne).1 hc))]
  refine ⟨hlen, hnext, ?_, ?_, ?_, ?_, hfinSub, hfinOff, ?_, ?_, ?_, ?_⟩
  · intro j h
    simp only at h
    exact hcur j h
  · intro h
    simp only at h
    rw [hcuri] at h
    cases h
  · exact List.Sublist.trans (List.erase_sublist _ _) hfoldSub
  · intro hfin
    rw [hfinF] at hfin
    cases hfin
  · intro r' hr'
    by_cases hne : r' = r
    · subst hne
      simp only [if_pos rfl, hnewr]
      rw [acceptedSlices_succ, ← holdr]
      rw [hcontents r' hr']
      simp
    · simp only [if_neg hne, hsame r' hne]
      exact hcontents r' hr'
  · obtain ⟨ta, tf, htr, hta, htf, hempty⟩ := htraceSplit
    refine ⟨ta ++ [.accept r i], [], ?_, ?_, by simp, fun _ => rfl⟩
    · rw [htr, hempty hfinF]
      simp
    · intro e he
      rcases List.mem_append.1 he with h | h
      · exact hta e h
      · simp at h
        rw [h]
        rfl
  · intro r' hr'
    rw [List.filter_append]
    by_cases hne : r' = r
    · subst hne
      have : List.filter (Event.isAcceptOf r') [Event.accept r' i] = [Event.accept r' i] := by
        simp [Event.isAcceptOf]
      rw [this, hnewr, htraceAcc r' hr', holdr, List.range_succ]
      simp
    · have : List.filter (Event.isAcceptOf r') [Event.accept r i] = [] := by
        simp [Event.isAcceptOf]
        exact fun h => absurd h.symm hne
      rw [this, hsame r' hne, htraceAcc r' hr']
      simp
  · intro r'
    simp only [List.count_append]
    have : List.count (Event.finalize r') [Event.accept r i] = 0 := by
      simp [List.count_singleton]
    rw [this, htraceFin r']
    simp

theorem inv_step_finStart (P : Pipeline) (s : LoadState)
    (hg1 : s.next = P.n) (hg2 : s.foldPending = []) (hg3 : s.finPhase = false)
    (I : Inv P s) :
    Inv P { s with finPhase := true, finPending := finRefs P } := by
  obtain ⟨hlen, hnext, hcur, hcurNone, hfoldSub, hfinNoFold, hfinSub, hfinOff,
    hcontents, htraceSplit, htraceAcc, htraceFin⟩ := I
  refine ⟨hlen, hnext, hcur, hcurNone, hfoldSub, ?_, List.Sublist.refl _, ?_, hcontents,
    ?_, htraceAcc, ?_⟩
  · intro _
    exact ⟨hg1, hg2⟩
  · intro h
    simp at h
  · obtain ⟨ta, tf, htr, hta, htf, _⟩ := htraceSplit
    exact ⟨ta, tf, htr, hta, htf, by intro h; simp at h⟩
  · intro r
    rw [htraceFin r, hg3]
    simp

theorem inv_step_finDone (P : Pipeline) (s : LoadState) (r : AccRef)
    (hg1 : s.finPhase = true) (hg2 : r ∈ s.finPending) (I : Inv P s) :
    Inv P { s with
      finPending := s.finPending.erase r
      trace := s.trace ++ [.finalize r] } := by
  obtain ⟨hlen, hnext, hcur, hcurNone, hfoldSub, hfinNoFold, hfinSub, hfinOff,
    hcontents, htraceSplit, htraceAcc, htraceFin⟩ := I
  have hpnodup : s.finPending.Nodup := List.Nodup.sublist hfinSub (finRefs_nodup P)
  have hrfin : r ∈ finRefs P := List.Sublist.mem hg2 hfinSub
  refine ⟨hlen, hnext, hcur, hcurNone, hfoldSub, ?_, ?_, ?_, ?_, ?_, ?_, ?_⟩
  · intro _
    exact hfinNoFold hg1
  · exact List.Sublist.trans (List.erase_sublist _ _) hfinSub
  · intro h
    simp [hg1] at h
  · intro r' hr'
    exact hcontents r' hr'
  · obtain ⟨ta, tf, htr, hta, htf, _⟩ := htraceSplit
    refine ⟨ta, tf ++ [.finalize r], by rw [htr]; simp, hta, ?_, by intro h; simp [hg1] at h⟩
    intro e he
    rcases List.mem_append.1 he with h | h
    · exact htf e h
    · simp at h
      rw [h]
      rfl
  · intro r' hr'
    rw [List.filter_append]
    have : List.filter (Event.isAcceptOf r') [Event.finalize r] = [] := by
      simp [Event.isAcceptOf]
    rw [this, htraceAcc r' hr']
    simp only [List.append_nil]
    rfl
  · intro r'
    simp only [List.count_append]
    by_cases hne : r' = r
    · subst hne
      have h1 : List.count (Event.finalize r') [Event.finalize r'] = 1 := by
        simp [List.count_singleton]
      have hpc : s.finPending.count r' = 1 :=
        List.count_eq_one_of_mem hpnodup hg2
      have hfc : (finRefs P).count r' = 1 :=
        List.count_eq_one_of_mem (finRefs_nodup P) hrfin
      have hec : (s.finPending.erase r').count r' = 0 := by
        rw [List.count_erase_self, hpc]
      rw [h1, htraceFin r', hg1, hpc, hfc]
      simp only [if_pos rfl, hec, hg1]
      simp [hfc]
    · have h0 : List.count (Event.finalize r') [Event.finalize r] = 0 := by
        simp [List.count_singleton, hne]
      have hec : (s.finPending.erase r).count r' = s.finPending.count r' :=
        List.count_erase_of_ne hne _
      rw [h0, htraceFin r', hec]
      simp

theorem inv_step (P : Pipeline) (s s' : LoadState) (e : Ev)
    (hstep : step P s e = some s') (I : Inv P s) : Inv P s' := by
  cases e with
  | parseDone i =>
    simp only [step] at hstep
    split at hstep
    · obtain rfl := Option.some.inj hstep
      exact inv_step_parse P s i I
    · cases hstep
  | consume =>
    simp only [step] at hstep
    split at hstep
    case isTrue hg =>
      obtain rfl := Option.some.inj hstep
      exact inv_step_consume P s hg.1 hg.2.2 I
    case isFalse => cases hstep
  | acceptDone r =>
    simp only [step] at hstep
    cases hcuri : s.cur with
    | none => rw [hcuri] at hstep; cases hstep
    | some i =>
      rw [hcuri] at hstep
      replace hstep : (if r ∈ s.foldPending then
          some { s with
            cur := some i
            foldPending := s.foldPending.erase r
            contents := fun r' =>
              if r' = r then (s.contents r).app (sliceOf P i r) else s.contents r'
            trace := s.trace ++ [.accept r i] }
        else none) = some s' := hstep
      by_cases hg : r ∈ s.foldPending
      · rw [if_pos hg] at hstep
        obtain rfl := Option.some.inj hstep
        have hres := inv_step_accept P s r i hcuri hg I
        rw [hcuri] at hres
        exact hres
      · rw [if_neg hg] at hstep
        cases hstep
  | finStart =>
    simp only [step] at hstep
    split at hstep
    case isTrue hg =>
      obtain rfl := Option.some.inj hstep
      exact inv_step_finStart P s hg.1 hg.2.1 hg.2.2 I
    case isFalse => cases hstep
  | finDone r =>
    simp only [step] at hstep
    split at hstep
    case isTrue hg =>
      obtain rfl := Option.some.inj hstep
      exact inv_step_finDone P s r hg.1 hg.2 I
    case isFalse => cases hstep

theorem inv_run (P : Pipeline) (evs : List Ev) (s s' : LoadState)
    (hrun : execRun P s evs = some s') (I : Inv P s) : Inv P s' := by
  induction evs generalizing s with
  | nil =>
    obtain rfl := Option.some.inj hrun
    exact I
  | cons e evs ih =>
    simp only [execRun] at hrun
    cases hstep : step P s e with
    | none => rw [hstep] at hrun; cases hrun
    | some s1 =>
      rw [hstep] at hrun
      exact ih s1 hrun (inv_step P s s1 e hstep I)

theorem foldedCount_done (P : Pipeline) (s : LoadState) (I : Inv P s)
    (hd : isDone s = true) : ∀ r, foldedCount s r = P.n := by
  intro r
  have hfin : s.finPhase = true := by
    simp [isDone] at hd
    exact hd.1
  obtain ⟨hn, hp⟩ := I.hfinNoFold hfin
  cases hc : s.cur with
  | none => simp [foldedCount, hc, hn]
  | some i =>
    have := I.hcur i hc
    simp [foldedCount, hc, hp]
    omega

theorem headerPos_eq_lastOcc (hc name : String) :
    headerPos hc name = lastOcc ((stringsSplit hc '\t').map trimWhiteSpace) name := by
  unfold headerPos
  rw [buildHeaderMap_eq]
  cases h : lastOcc ((stringsSplit hc '\t').map trimWhiteSpace) name with
  | some j => simp
  | none => rfl

/-- Draining the finalize fan-out: from a state in the finalize phase with
pending tasks `l`, completing them one by one reaches the fully finalized
state, appending one finalize event per task. -/
theorem execRun_finDone_drain (P : Pipeline) (l : List AccRef) :
    ∀ s : LoadState, s.finPhase = true → s.finPending = l →
      ∃ s', execRun P s (l.map Ev.finDone) = some s'
        ∧ s'.finPhase = true ∧ s'.finPending = []
        ∧ s'.trace = s.trace ++ l.map Event.finalize
        ∧ s'.contents = s.contents ∧ s'.next = s.next := by
  induction l with
  | nil =>
    intro s h1 h2
    exact ⟨s, rfl, h1, h2, by simp, rfl, rfl⟩
  | cons r l ih =>
    intro s h1 h2
    have herase : s.finPending.erase r = l := by
      rw [h2]
      exact List.erase_cons_head r l
    have hstep : step P s (.finDone r) = some { s with
        finPending := s.finPending.erase r
        trace := s.trace ++ [.finalize r] } := by
      simp [step, h1, h2]
    obtain ⟨s', hrun, hf1, hf2, hf3, hf4, hf5⟩ :=
      ih { s with
            finPending := s.finPending.erase r
            trace := s.trace ++ [.finalize r] } h1 (by simpa using herase)
    refine ⟨s', ?_, hf1, hf2, ?_, hf4, hf5⟩
    · simp only [List.map_cons, execRun, hstep]
      exact hrun
    · rw [hf3]
      simp

/-- The check-and-enqueue loop, when file `j` is the first missing one:
exactly the tasks for the earlier files have been enqueued, and the loop
aborts at `j`. -/
theorem submitParseTasks_missing (fs : FileSys) (tsvs : List String) :
    ∀ i j, j < tsvs.length →
      (∀ k, k < j → fileExists fs (tsvs.getD k "") = true) →
      fileExists fs (tsvs.getD j "") = false →
      submitParseTasks fs tsvs i = ((List.range j).map (i + ·), some (i + j)) := by
  induction tsvs with
  | nil =>
    intro i j hj
    simp at hj
  | cons t rest ih =>
    intro i j hj hbefore hmiss
    cases j with
    | zero =>
      have ht : fileExists fs t = false := by simpa using hmiss
      simp [submitParseTasks, ht]
    | succ j' =>
      have ht : fileExists fs t = true := by simpa using hbefore 0 (Nat.succ_pos _)
      have hrec := ih (i + 1) j' (by simpa using hj)
        (fun k hk => by simpa using hbefore (k + 1) (by omega))
        (by simpa using hmiss)
      simp only [submitParseTasks, ht, if_pos, hrec]
      simp only [Prod.mk.injEq]
      constructor
      · rw [List.range_succ_eq_map]
        simp only [List.map_cons, List.map_map]
        congr 1
        apply List.map_congr_left
        intro a _
        simp [Function.comp]
        omega
      · congr 1
        omega

/-! ## The claims -/

/-- C4: for any header and configuration where every configured name is
present in the (trimmed) header, schema resolution succeeds; it maps each
configured name to its exact zero-based position in the header (the unique
position, as the header names are assumed distinct); the two slot-index
lists are the positions of the numeric names (binned first, then raw, in
declaration order) and of the categorical names (in declaration order);
and each column's dense slot index equals its position in its
type-specific list. -/
theorem schema_resolution_positions_and_slots (hc : String) (config : TSVDataConfig)
    (hpresent : ∀ name ∈ config.binned_float_column ++ config.raw_float_column
        ++ config.string_column, name ∈ (stringsSplit hc '\t').map trimWhiteSpace)
    (hnodup : ((stringsSplit hc '\t').map trimWhiteSpace).Nodup) :
    ∃ st, setupColumns hc config = .ok st
      ∧ st.float_column_indices
          = (config.binned_float_column ++ config.raw_float_column).map
              (fun n => (headerPos hc n).getD 0)
      ∧ st.string_column_indices
          = config.string_column.map (fun n => (headerPos hc n).getD 0)
      ∧ (∀ name ∈ config.binned_float_column ++ config.raw_float_column
            ++ config.string_column,
          ((stringsSplit hc '\t').map trimWhiteSpace)[(headerPos hc name).getD 0]?
              = some name
          ∧ ∀ j, ((stringsSplit hc '\t').map trimWhiteSpace)[j]? = some name
              → j = (headerPos hc name).getD 0)
      ∧ st.binned_float_columns.map Prod.snd = List.range config.binned_float_column.length
      ∧ st.raw_float_columns.map Prod.snd
          = (List.range config.raw_float_column.length).map
              (fun k => config.binned_float_column.length + k)
      ∧ st.string_columns.map Prod.snd = List.range config.string_column.length := by
  have hsome : ∀ n ∈ config.binned_float_column ++ config.raw_float_column
      ++ config.string_column, (headerPos hc n).isSome = true :=
    fun n hn => (headerPos_isSome_iff hc n).2 (hpresent n hn)
  obtain ⟨st, hok, h1, h2, h3, h4, h5, _⟩ := setupColumns_sound hc config hsome
  refine ⟨st, hok, h4, h5, ?_, ?_, ?_, ?_⟩
  · intro name hn
    obtain ⟨j, hj⟩ := Option.isSome_iff_exists.1 (hsome name hn)
    have hlo : lastOcc ((stringsSplit hc '\t').map trimWhiteSpace) name = some j := by
      rw [← headerPos_eq_lastOcc, hj]
    obtain ⟨hget, _⟩ := lastOcc_spec _ _ _ hlo
    rw [hj]
    refine ⟨hget, ?_⟩
    intro j' hj'
    have hlt : j' < ((stringsSplit hc '\t').map trimWhiteSpace).length :=
      (List.getElem?_eq_some_iff.1 hj').1
    exact List.getElem?_inj hlt hnodup (hj'.trans hget.symm)
  · rw [h1]
    simp [Function.comp_def]
  · rw [h2]
    simp [Function.comp_def]
  · rw [h3]
    simp [Function.comp_def]

/-- C8: schema resolution is deterministic — two runs on the same header
file contents and the same configuration produce identical numeric and
categorical slot-index lists. -/
theorem schema_resolution_deterministic (h1 h2 : String) (c1 c2 : TSVDataConfig)
    (hh : h1 = h2) (hc : c1 = c2) :
    (setupColumns h1 c1).map
        (fun st => (st.float_column_indices, st.string_column_indices))
      = (setupColumns h2 c2).map
          (fun st => (st.float_column_indices, st.string_column_indices)) := by
  subst hh
  subst hc
  rfl

/-- C9: if the trimmed header contains the same name at more than one
position, resolution maps every configured reference to that name to its
**last** occurrence's position, because later header entries overwrite
earlier ones in the name-to-index map. -/
theorem duplicate_header_last_occurrence_wins (hc name : String) (j : Nat)
    (config : TSVDataConfig) (st : SetupState)
    (hj : ((stringsSplit hc '\t').map trimWhiteSpace)[j]? = some name)
    (hlast : ∀ k, j < k → ((stringsSplit hc '\t').map trimWhiteSpace)[k]? ≠ some name)
    (hok : setupColumns hc config = .ok st) :
    headerPos hc name = some j
    ∧ (∀ p : Nat, (config.binned_float_column ++ config.raw_float_column)[p]? = some name
        → st.float_column_indices[p]? = some j)
    ∧ (∀ p : Nat, config.string_column[p]? = some name
        → st.string_column_indices[p]? = some j) := by
  have hpos : headerPos hc name = some j := by
    rw [headerPos_eq_lastOcc]
    exact lastOcc_eq_of _ _ _ hj hlast
  have hsome := setupColumns_names hc config st hok
  obtain ⟨st', hok', _, _, _, h4, h5, _⟩ := setupColumns_sound hc config hsome
  obtain rfl : st' = st := by
    rw [hok] at hok'
    exact (Except.ok.inj hok').symm
  refine ⟨hpos, ?_, ?_⟩
  · intro p hp
    rw [h4, List.getElem?_map, hp]
    simp [hpos]
  · intro p hp
    rw [h5, List.getElem?_map, hp]
    simp [hpos]

/-- C6: duplicate configured names are not deduplicated — every configured
occurrence (duplicate or not) creates its own accumulator (the accumulator
ids across the three kind lists are exactly `0, 1, 2, …`, pairwise
distinct) and its own slot-index entry (one header-position entry per
occurrence in the type-specific index list). -/
theorem duplicate_names_independent_slots (hc : String) (config : TSVDataConfig)
    (st : SetupState) (hok : setupColumns hc config = .ok st) :
    (st.binned_float_columns ++ st.raw_float_columns ++ st.string_columns).map Prod.fst
      = List.range (config.binned_float_column.length + config.raw_float_column.length
          + config.string_column.length)
    ∧ st.float_column_indices
        = (config.binned_float_column ++ config.raw_float_column).map
            (fun n => (headerPos hc n).getD 0)
    ∧ st.string_column_indices
        = config.string_column.map (fun n => (headerPos hc n).getD 0)
    ∧ st.float_column_indices.length
        = config.binned_float_column.length + config.raw_float_column.length
    ∧ st.string_column_indices.length = config.string_column.length := by
  have hsome := setupColumns_names hc config st hok
  obtain ⟨st', hok', h1, h2, h3, h4, h5, _⟩ := setupColumns_sound hc config hsome
  obtain rfl : st' = st := by
    rw [hok] at hok'
    exact (Except.ok.inj hok').symm
  refine ⟨?_, h4, h5, by rw [h4]; simp, by rw [h5]; simp⟩
  rw [h1, h2, h3]
  rw [List.range_add, List.range_add]
  simp [List.map_map, Function.comp_def]

/-- C5: a configured column name absent from the (trimmed) header makes the
load fail before any data file is opened or any parse task is submitted:
`loadPrepare` returns the empty submission list together with a fatal
error. -/
theorem absent_name_fails_early (fs : FileSys) (hf : String) (tsvs : List String)
    (config : TSVDataConfig) (name : String)
    (hmem : name ∈ config.binned_float_column ++ config.raw_float_column
        ++ config.string_column)
    (habsent : ∀ hc, fs hf = some hc
        → name ∉ (stringsSplit hc '\t').map trimWhiteSpace) :
    (loadPrepare fs hf tsvs config).1 = []
    ∧ ∃ e, (loadPrepare fs hf tsvs config).2 = .error e := by
  cases hread : fs hf with
  | none =>
    constructor
    · simp [loadPrepare, hread]
    · exact ⟨"Failed to read " ++ hf ++ ".", by simp [loadPrepare, hread]⟩
  | some hc =>
    cases hsetup : setupColumns hc config with
    | error e =>
      constructor
      · simp [loadPrepare, hread, hsetup]
      · exact ⟨e, by simp [loadPrepare, hread, hsetup]⟩
    | ok st =>
      exfalso
      have hsome := setupColumns_names hc config st hsetup name hmem
      exact habsent hc hread ((headerPos_isSome_iff hc name).1 hsome)

/-- C2 (counterexample): with files `[a, b]` where `a` exists and `b` does
not, the load does fail, but the parse task for `a` has already been
submitted when the missing file is detected — the error is **not**
detected before any parse task is submitted. -/
theorem missing_file_detected_after_a_submission :
    (loadPrepare fsC2 "header" ["a", "b"] cfgC2).1 = [0]
    ∧ (loadPrepare fsC2 "header" ["a", "b"] cfgC2).2.toOption.isNone = true := by
  decide

/-- C2 (amended): a missing input file makes the load fail with a fatal
error, and the check for file `j` happens immediately before submitting
file `j`'s parse task — so the error is detected before the missing
file's own parse task (or any later file's) is submitted, while the parse
tasks of the earlier files (exactly indices `0 … j-1`) have already been
submitted. -/
theorem missing_file_aborts_before_own_submission (fs : FileSys) (hf : String)
    (tsvs : List String) (config : TSVDataConfig) (hc : String) (st : SetupState)
    (j : Nat)
    (hfs : fs hf = some hc) (hsetup : setupColumns hc config = .ok st)
    (hj : j < tsvs.length)
    (hmiss : fileExists fs (tsvs.getD j "") = false)
    (hbefore : ∀ k, k < j → fileExists fs (tsvs.getD k "") = true) :
    ∃ e, loadPrepare fs hf tsvs config = (List.range j, Except.error e) := by
  have hsub := submitParseTasks_missing fs tsvs 0 j hj hbefore hmiss
  refine ⟨"TSV " ++ tsvs.getD j "" ++ " does not exist.", ?_⟩
  have hmap : (List.range j).map (0 + ·) = List.range j := by
    simp
  simp only [loadPrepare, hfs, hsetup, hsub, hmap]
  simp

/-- C1: blocks are consumed by the fold phase in strict input-file order,
independent of the order in which parse tasks complete: in **every**
completed run of the load machine, each accumulator's accept events carry
the block indices `0, 1, …, n-1` in that order, and each raw-numeric
accumulator's contents are the concatenation of its per-file slices in
the caller-supplied file order (for two files `[A, B]` this is
`rows(A) ++ rows(B)`, even when `B`'s parse finishes first). -/
theorem fold_consumes_blocks_in_file_order (fs : FileSys) (hf : String)
    (tsvs : List String) (config : TSVDataConfig) (st : SetupState)
    (_hprep : (loadPrepare fs hf tsvs config).2 = .ok st)
    (evs : List Ev) (s : LoadState)
    (hrun : execRun (mkPipeline fs tsvs st) (initLoadState (mkPipeline fs tsvs st)) evs
      = some s)
    (hdone : isDone s = true) :
    (∀ r ∈ foldRefs (mkPipeline fs tsvs st),
        s.trace.filter (Event.isAcceptOf r)
          = (List.range tsvs.length).map (Event.accept r))
    ∧ ∀ k, k < (mkPipeline fs tsvs st).lenR →
        s.contents (.raw k)
          = .fl (((List.range tsvs.length).map fun i =>
              blockFloats (mkPipeline fs tsvs st) i
                (slotR (mkPipeline fs tsvs st) k)).flatten) := by
  have I := inv_run (mkPipeline fs tsvs st) evs _ s hrun (inv_init _)
  have hfc := foldedCount_done (mkPipeline fs tsvs st) s I hdone
  have hn : (mkPipeline fs tsvs st).n = tsvs.length := by
    simp [mkPipeline, Pipeline.n]
  constructor
  · intro r hr
    have := I.htraceAcc r hr
    rw [hfc r, hn] at this
    exact this
  · intro k hk
    have hmem : AccRef.raw k ∈ foldRefs (mkPipeline fs tsvs st) := by
      unfold foldRefs
      refine List.mem_append.2 (Or.inl (List.mem_append.2 (Or.inr ?_)))
      exact List.mem_map.2 ⟨k, List.mem_range.2 hk, rfl⟩
    have := I.hcontents _ hmem
    rw [hfc _, hn] at this
    rw [this]
    rfl

/-- C3: in every completed run of the load machine, the trace of
accumulator calls splits into all the accept events followed by all the
finalize events (so no accept is concurrent with, or occurs after, any
finalize), each accumulator is finalized exactly once, and each
accumulator received exactly one accept per input file before that. -/
theorem finalize_once_after_all_accepts (fs : FileSys) (hf : String)
    (tsvs : List String) (config : TSVDataConfig) (st : SetupState)
    (_hprep : (loadPrepare fs hf tsvs config).2 = .ok st)
    (evs : List Ev) (s : LoadState)
    (hrun : execRun (mkPipeline fs tsvs st) (initLoadState (mkPipeline fs tsvs st)) evs
      = some s)
    (hdone : isDone s = true) :
    ∃ ta tf, s.trace = ta ++ tf
      ∧ (∀ e ∈ ta, e.isAccept = true)
      ∧ (∀ e ∈ tf, e.isAccept = false)
      ∧ (∀ r ∈ finRefs (mkPipeline fs tsvs st), s.trace.count (Event.finalize r) = 1)
      ∧ (∀ r ∈ foldRefs (mkPipeline fs tsvs st),
          (s.trace.filter (Event.isAcceptOf r)).length = tsvs.length) := by
  have I := inv_run (mkPipeline fs tsvs st) evs _ s hrun (inv_init _)
  have hfc := foldedCount_done (mkPipeline fs tsvs st) s I hdone
  have hn : (mkPipeline fs tsvs st).n = tsvs.length := by
    simp [mkPipeline, Pipeline.n]
  have hfin : s.finPhase = true := by
    simp [isDone] at hdone
    exact hdone.1
  have hpend : s.finPending = [] := by
    simp [isDone] at hdone
    exact hdone.2
  obtain ⟨ta, tf, htr, hta, htf, _⟩ := I.htraceSplit
  refine ⟨ta, tf, htr, hta, htf, ?_, ?_⟩
  · intro r hr
    have := I.htraceFin r
    rw [hfin, hpend] at this
    simpa [List.count_eq_one_of_mem (finRefs_nodup _) hr] using this
  · intro r hr
    have := I.htraceAcc r hr
    rw [hfc r, hn] at this
    rw [this]
    simp

/-- C10: with an empty list of input files (and a readable header and a
resolvable configuration), the prepare phase succeeds while submitting no
parse task, and the machine completes: the resulting trace contains no
accept event and exactly one finalize event per configured accumulator,
and every accumulator's contents are empty (zero rows). -/
theorem empty_file_list_load (fs : FileSys) (hf : String) (config : TSVDataConfig)
    (hc : String) (st : SetupState)
    (hfs : fs hf = some hc) (hsetup : setupColumns hc config = .ok st) :
    loadPrepare fs hf [] config = ([], .ok st)
    ∧ ∃ s, execRun (mkPipeline fs [] st) (initLoadState (mkPipeline fs [] st))
          (Ev.finStart :: (finRefs (mkPipeline fs [] st)).map Ev.finDone) = some s
        ∧ isDone s = true
        ∧ s.trace = (finRefs (mkPipeline fs [] st)).map Event.finalize
        ∧ (∀ r ∈ finRefs (mkPipeline fs [] st), s.trace.count (Event.finalize r) = 1)
        ∧ (∀ e ∈ s.trace, e.isAccept = false)
        ∧ (∀ r, s.contents r = emptySlice r) := by
  constructor
  · simp [loadPrepare, hfs, hsetup, submitParseTasks]
  · have hn0 : (mkPipeline fs [] st).n = 0 := by
      simp [mkPipeline, Pipeline.n]
    have hstep : step (mkPipeline fs [] st) (initLoadState (mkPipeline fs [] st)) .finStart
        = some { initLoadState (mkPipeline fs [] st) with
            finPhase := true
            finPending := finRefs (mkPipeline fs [] st) } := by
      simp [step, initLoadState, hn0]
    obtain ⟨s, hrun, h1, h2, h3, h4, _⟩ :=
      execRun_finDone_drain (mkPipeline fs [] st) (finRefs (mkPipeline fs [] st))
        { initLoadState (mkPipeline fs [] st) with
          finPhase := true
          finPending := finRefs (mkPipeline fs [] st) } rfl rfl
    refine ⟨s, ?_, ?_, ?_, ?_, ?_, ?_⟩
    · simp only [execRun, hstep]
      exact hrun
    · simp [isDone, h1, h2]
    · rw [h3]
      simp [initLoadState]
    · intro r hr
      rw [h3]
      have hinj : Function.Injective Event.finalize := fun a b h => by injection h
      simp only [initLoadState, List.nil_append]
      rw [List.count_map_of_injective _ Event.finalize hinj r]
      exact List.count_eq_one_of_mem (finRefs_nodup _) hr
    · intro e he
      rw [h3] at he
      simp [initLoadState] at he
      obtain ⟨r, _, rfl⟩ := he
      rfl
    · intro r
      rw [h4]
      cases r <;> rfl

/-- C7: the spec's example scenario — header `id x y label`, configuration
`{raw_numeric: [x, y], categorical: [label]}`, one-row files
`"1 0.5 1.2 A"` and `"2 0.7 0.9 B"` in that order — loads successfully
and yields raw-numeric column `x = [0.5, 0.7]`, raw-numeric column
`y = [1.2, 0.9]`, and categorical column `label = [A, B]`. -/
theorem example_scenario_end_to_end :
    ((loadTSVsCanonical fs7 "header" ["f1", "f2"] cfg7).toOption.map
        (fun s => (isDone s, s.contents (.raw 0), s.contents (.raw 1),
          s.contents (.string 0))))
      = some (true, .fl [mkRat 1 2, mkRat 7 10], .fl [mkRat 6 5, mkRat 9 10],
          .st ["A", "B"]) := by
  decide

/-! ## Witnesses -/

theorem fold_consumes_blocks_in_file_order_witness :
    (loadPrepare fs7 "header" ["f1", "f2"] cfg7).2 = .ok st1
    ∧ execRun P1 (initLoadState P1) sched1 = some s1
    ∧ isDone s1 = true
    ∧ s1.contents (.raw 0) = .fl ([mkRat 1 2] ++ [mkRat 7 10]) := by
  have hprep : (loadPrepare fs7 "header" ["f1", "f2"] cfg7).2 = .ok st1 := rfl
  have hrun : execRun P1 (initLoadState P1) sched1 = some s1 := rfl
  have hdone : isDone s1 = true := by decide
  have hmain := (fold_consumes_blocks_in_file_order fs7 "header" ["f1", "f2"] cfg7 st1
    hprep sched1 s1 hrun hdone).2 0 (by decide)
  refine ⟨hprep, hrun, hdone, ?_⟩
  rw [hmain]
  decide

theorem finalize_once_after_all_accepts_witness :
    execRun P1 (initLoadState P1) sched1 = some s1
    ∧ s1.trace.count (Event.finalize (.raw 0)) = 1
    ∧ (s1.trace.filter (Event.isAcceptOf (.raw 0))).length = 2 := by
  have hprep : (loadPrepare fs7 "header" ["f1", "f2"] cfg7).2 = .ok st1 := rfl
  have hrun : execRun P1 (initLoadState P1) sched1 = some s1 := rfl
  have hdone : isDone s1 = true := by decide
  obtain ⟨ta, tf, _, _, _, hcount, hlen⟩ := finalize_once_after_all_accepts fs7 "header"
    ["f1", "f2"] cfg7 st1 hprep sched1 s1 hrun hdone
  exact ⟨hrun, hcount _ (by decide), hlen _ (by decide)⟩

theorem missing_file_aborts_before_own_submission_witness :
    ∃ e, loadPrepare fsC2 "header" ["a", "b", "c"] cfgC2 = ([0], Except.error e) := by
  have hbefore : ∀ k, k < 1
      → fileExists fsC2 ((["a", "b", "c"] : List String).getD k "") = true := by
    intro k hk
    have hk0 : k = 0 := by omega
    subst hk0
    decide
  obtain ⟨e, he⟩ := missing_file_aborts_before_own_submission fsC2 "header"
    ["a", "b", "c"] cfgC2 "x" stC2 1 rfl rfl (by decide) (by decide) hbefore
  rw [show List.range 1 = [0] from rfl] at he
  exact ⟨e, he⟩

theorem schema_resolution_positions_and_slots_witness :
    ∃ st, setupColumns hc4 cfg4 = .ok st
      ∧ st.float_column_indices = [2, 1]
      ∧ st.string_column_indices = [3]
      ∧ st.binned_float_columns.map Prod.snd = [0]
      ∧ st.raw_float_columns.map Prod.snd = [1]
      ∧ st.string_columns.map Prod.snd = [0] := by
  obtain ⟨st, hok, h1, h2, _h3, h4, h5, h6⟩ :=
    schema_resolution_positions_and_slots hc4 cfg4 (by decide) (by decide)
  exact ⟨st, hok, by rw [h1]; decide, by rw [h2]; decide, by rw [h4]; decide,
    by rw [h5]; decide, by rw [h6]; decide⟩

theorem absent_name_fails_early_witness :
    (loadPrepare fs5 "header" ["f"] cfg5).1 = []
    ∧ ∃ e, (loadPrepare fs5 "header" ["f"] cfg5).2 = .error e := by
  refine absent_name_fails_early fs5 "header" ["f"] cfg5 "zz" (by decide) ?_
  intro hc h
  have hhc : hc = "a\tb" := (Option.some.inj h).symm
  subst hhc
  decide

theorem duplicate_names_independent_slots_witness :
    setupColumns "x" cfg6 = .ok st6
    ∧ (st6.binned_float_columns ++ st6.raw_float_columns ++ st6.string_columns).map Prod.fst
        = [0, 1]
    ∧ st6.float_column_indices = [0, 0]
    ∧ st6.float_column_indices.length = 2 := by
  have hok : setupColumns "x" cfg6 = .ok st6 := rfl
  obtain ⟨h1, h2, _h3, h4, _h5⟩ := duplicate_names_independent_slots "x" cfg6 st6 hok
  refine ⟨hok, by rw [h1]; decide, by rw [h2]; decide, ?_⟩
  rw [h4]
  decide

theorem schema_resolution_deterministic_witness :
    (setupColumns hc4 cfg4).map
        (fun st => (st.float_column_indices, st.string_column_indices))
      = (setupColumns hc4 cfg4).map
          (fun st => (st.float_column_indices, st.string_column_indices)) :=
  schema_resolution_deterministic hc4 hc4 cfg4 cfg4 rfl rfl

theorem duplicate_header_last_occurrence_wins_witness :
    headerPos hc9 "x" = some 2
    ∧ st9.float_column_indices[0]? = some 2 := by
  have hok : setupColumns hc9 cfg9 = .ok st9 := rfl
  have hlast : ∀ k, 2 < k
      → ((stringsSplit hc9 '\t').map trimWhiteSpace)[k]? ≠ some "x" := by
    intro k hk
    have hlen : ((stringsSplit hc9 '\t').map trimWhiteSpace).length = 3 := by decide
    rw [List.getElem?_eq_none (by omega)]
    simp
  obtain ⟨hpos, hfl, _⟩ := duplicate_header_last_occurrence_wins hc9 "x" 2 cfg9 st9
    (by decide) hlast hok
  exact ⟨hpos, hfl 0 (by decide)⟩

theorem empty_file_list_load_witness :
    loadPrepare fs10 "header" [] cfg10 = ([], .ok st10)
    ∧ ∃ s, execRun (mkPipeline fs10 [] st10) (initLoadState (mkPipeline fs10 [] st10))
          (Ev.finStart :: (finRefs (mkPipeline fs10 [] st10)).map Ev.finDone) = some s
        ∧ isDone s = true
        ∧ s.trace = (finRefs (mkPipeline fs10 [] st10)).map Event.finalize := by
  obtain ⟨h1, s, h2, h3, h4, _, _, _⟩ :=
    empty_file_list_load fs10 "header" cfg10 "a\tb" st10 rfl rfl
  exact ⟨h1, s, h2, h3, h4⟩

end gbdt
